import Mathlib

/-!
Verification development for the parallel Ising temperature-sweep example
(`src/examples/simulation_parallel.rs`).

The example drives, per temperature `T`, a Metropolis-style bounded-retry
flip loop over a spin lattice, records `measurements_per_T` samples of
(energy per site, order parameter), reduces them to one `Record`, and sorts
all records by temperature before the results file is written.

The lattice/statistics primitives live in the `ising_lib` crate whose source
is not part of this tree; those are modelled from the specification and each
such definition is marked `Modelled from the spec`.  Floating-point numbers
are embedded as exact rationals; the one place where IEEE unorderability
matters (the final sort's `partial_cmp ... unwrap_or(Less)` comparator) is
modelled with an explicit not-a-number value.  Randomness is embedded as an
explicit stream of draws: each proposal consumes one `(raw index, uniform
value)` pair from the stream.
-/

namespace IsingSim

/-- Modelled from the spec (ising_lib `Lattice` is not under `src/`): spin of
the cell in row `r`, column `c` of an `n`-by-`n` row-major spin list, with
periodic wrap-around. -/
def spinAt (n : ℕ) (s : List ℤ) (r c : ℕ) : ℤ :=
  s.getD (r % n * n + c % n) 1

/-- Modelled from the spec: `energyDeltaIfFlipped` — the energy change that
would result from flipping the spin at flat index `ix`, as twice the
coupling-weighted product of that spin with the sum of its four periodic
neighbours' spins (ΔE = 2·J·s·Σneighbours). -/
def measure_E_diff (n : ℕ) (s : List ℤ) (ix : ℕ) (J : ℚ) : ℚ :=
  let r := ix / n
  let c := ix % n
  let nbrs : ℤ :=
    spinAt n s (r + 1) c + spinAt n s (r + (n - 1)) c +
    spinAt n s r (c + 1) + spinAt n s r (c + (n - 1))
  2 * J * (spinAt n s r c : ℚ) * (nbrs : ℚ)

/-- Modelled from the spec: `flipSpin` negates the spin at flat index `ix`. -/
def flip_spin (s : List ℤ) (ix : ℕ) : List ℤ :=
  s.set ix (-(s.getD ix 1))

/-- Modelled from the spec: the nearest-neighbour pair sum of
`totalEnergyPerSite` — contributions over the whole periodic grid, each pair
counted once (each site paired with its right and down neighbour). -/
def pairSum (n : ℕ) (s : List ℤ) : ℤ :=
  ((List.range n).map (fun r =>
    ((List.range n).map (fun c =>
      spinAt n s r c * (spinAt n s r (c + 1) + spinAt n s (r + 1) c))).sum)).sum

/-- Modelled from the spec: `totalEnergyPerSite`, continued — the pair sum
weighted by the coupling constant and normalised per site. -/
def measure_E (n : ℕ) (s : List ℤ) (J : ℚ) : ℚ :=
  -J * (pairSum n s : ℚ) / ((n : ℚ) * (n : ℚ))

/-- Modelled from the spec: `orderParameter` — the magnitude of the mean spin
value across all cells. -/
def measure_I (n : ℕ) (s : List ℤ) : ℚ :=
  |((s.sum : ℤ) : ℚ)| / ((n : ℚ) * (n : ℚ))

/-- Arithmetic mean of a list of rationals (division by zero yields zero on
the empty list, mirroring the reduction only ever being applied to the
sample series). -/
def listMean (xs : List ℚ) : ℚ := xs.sum / (xs.length : ℚ)

/-- Population variance of a list of rationals. -/
def popVar (xs : List ℚ) : ℚ :=
  ((xs.map (fun x => (x - listMean xs) ^ 2)).sum) / (xs.length : ℚ)

/-- Modelled from the spec (ising_lib `calc_dE` is not under `src/`): a
fluctuation quantity from the population variance of the sampled energies.
The spec gives the canonical scaling Var(E)/(K·T²), but the call site
(`calc_dE(&Es, T)`, line 135) supplies only the energy series and the
temperature, so the thermal constant cannot reach the reduction; the model
therefore scales by 1/T² alone. -/
def calc_dE (Es : List ℚ) (T : ℚ) : ℚ := popVar Es / T ^ 2

/-- Modelled from the spec (ising_lib `calc_X` is not under `src/`): a
fluctuation quantity over the sampled energies; the call site
(`calc_X(&Es)`, line 137) supplies only the energy series. -/
def calc_X (Es : List ℚ) : ℚ := popVar Es

/-- The claim's version of the `dE` reduction, following the spec's words:
the population variance of the energies scaled as Var(E)/(K·T²) with the
thermal constant `K` taken from the configuration. -/
def calc_dE_specK (K T : ℚ) (Es : List ℚ) : ℚ := popVar Es / (K * T ^ 2)

/-- Which sample series a selectable susceptibility reduction reads. -/
inductive SeriesChoice
  | energy
  | order
  deriving DecidableEq

/-- The claim's version of the `X` reduction, following the spec's words: a
pluggable strategy that can operate over either the energy series or the
order-parameter series. -/
def calc_X_sel : SeriesChoice → List ℚ → List ℚ → ℚ
  | SeriesChoice.energy, Es, _ => popVar Es
  | SeriesChoice.order, _, Is => popVar Is

/-- Modelled from the spec (ising_lib `TRange::new_step` is not under
`src/`): temperatures starting at `lo`, spaced `step` apart, ending at or
just below `hi`, with count ⌊(hi−lo)/step⌋ + 1. -/
def tRangeList (lo hi step : ℚ) : List ℚ :=
  (List.range ((⌊(hi - lo) / step⌋).toNat + 1)).map (fun i => lo + (i : ℚ) * step)

/-- The simulation parameters (`Params`, source lines 16-25); the step of the
temperature range is hard-coded to 0.1 at the call site (line 52). -/
structure Params where
  T_min : ℚ
  T_max : ℚ
  flips_to_skip : ℕ
  measurements_per_T : ℕ
  flips_per_measurement : ℕ
  attempts_per_flip : ℕ
  lattice_size : ℕ
  J : ℚ
  K : ℚ

/-- One result row (`Record`, source lines 27-32), with the temperature as an
exact rational (the worker pipeline never produces an unorderable value). -/
structure RecordQ where
  T : ℚ
  dE : ℚ
  I : ℚ
  X : ℚ
  deriving DecidableEq

/-- A floating-point value as seen by the final sort's comparator: either an
ordinary (here: rational) value or not-a-number. -/
inductive FVal
  | nan
  | fin (q : ℚ)
  deriving DecidableEq

/-- The `partial_cmp` of two such values: `none` exactly when either side is
not-a-number. -/
def cmpOpt : FVal → FVal → Option Ordering
  | FVal.fin a, FVal.fin b =>
    some (if a < b then Ordering.lt else if a = b then Ordering.eq else Ordering.gt)
  | _, _ => none

/-- The sort comparator of the driver (source lines 143-145):
`a.T.partial_cmp(&b.T).unwrap_or(Less)` — the unorderable case falls back to
`Less` instead of failing. -/
def cmpF (a b : FVal) : Ordering := (cmpOpt a b).getD Ordering.lt

/-- A result row as the final sort sees it: the temperature field may in
general be unorderable. -/
structure RecordF where
  T : FVal
  dE : ℚ
  I : ℚ
  X : ℚ
  deriving DecidableEq

/-- Injection of a worker-produced row into the sort's view. -/
def toRecordF (r : RecordQ) : RecordF := ⟨FVal.fin r.T, r.dE, r.I, r.X⟩

/-- A worker's mutable state: the spin list of its lattice and the position
reached in its private stream of random draws (each proposal consumes one
draw). -/
structure WState where
  lat : List ℤ
  pos : ℕ
  deriving DecidableEq

/-- The per-worker static context: lattice side length, coupling constant,
the per-slot attempt bound, the flip-probability function specialised to the
worker's temperature and thermal constant, and the worker's private stream
of random draws.  One draw is a pair (raw index, uniform value in [0,1));
`gen_random_index` reduces the raw index modulo the cell count.
`calc_flip_probability` itself lives in ising_lib (not under `src/`), so the
worker treats its value opaquely through `fp`. -/
structure Ctx where
  size : ℕ
  J : ℚ
  attempts : ℕ
  fp : ℚ → ℚ
  draws : ℕ → ℕ × ℚ

/-- One proposal (source lines 87-99 and 110-123): pick a random cell,
compute its flip energy delta, evaluate the flip probability, draw a uniform
value, and apply the flip exactly when the probability exceeds the drawn
value.  Returns the new state and whether the flip was applied. -/
def proposalStep (c : Ctx) (st : WState) : WState × Bool :=
  let ix := (c.draws st.pos).1 % (c.size * c.size)
  let u := (c.draws st.pos).2
  let dlt := measure_E_diff c.size st.lat ix c.J
  if c.fp dlt > u then (⟨flip_spin st.lat ix, st.pos + 1⟩, true)
  else (⟨st.lat, st.pos + 1⟩, false)

/-- Bounded-retry driver of one flip slot: up to `n` further proposals, with
the `take_while(|already_flipped| !already_flipped)` early exit — iteration
stops right after the first applied flip. -/
def flipSlotGo (c : Ctx) : ℕ → WState → WState
  | 0, st => st
  | n + 1, st =>
    let r := proposalStep c st
    if r.2 then r.1 else flipSlotGo c n r.1

/-- One bounded-attempt flip slot (source lines 86-102 and 109-126): at most
`c.attempts` proposals, stopping at the first applied flip. -/
def flipSlot (c : Ctx) (st : WState) : WState := flipSlotGo c c.attempts st

/-- `k` successive flip slots (the `(0..k).for_each` loops at source lines
85 and 108). -/
def runSlots (c : Ctx) : ℕ → WState → WState
  | 0, st => st
  | k + 1, st => runSlots c k (flipSlot c st)

/-- Externally visible events of a worker, in program order: a progress
signal handed to the channel (with the delivery outcome the worker ignores),
and the two measurements taken for a sample. -/
inductive Ev
  | sendSignal (delivered : Bool)
  | measureEnergy
  | measureOrder
  deriving DecidableEq

/-- Whether an event is a progress-signal send. -/
def isSend : Ev → Bool
  | Ev.sendSignal _ => true
  | _ => false

/-- One measurement repetition (source lines 107-132): first
`fpm = flips_per_measurement` bounded flip slots, then the progress signal
is sent (line 129, its result discarded), then the sample
(`measure_E`, `measure_I`) is taken (line 131).  Returns the new state, the
sample, and the repetition's event list in program order. -/
def measureRep (c : Ctx) (fpm : ℕ) (ok : Bool) (st : WState) :
    WState × (ℚ × ℚ) × List Ev :=
  let st1 := runSlots c fpm st
  (st1, (measure_E c.size st1.lat c.J, measure_I c.size st1.lat),
    [Ev.sendSignal ok, Ev.measureEnergy, Ev.measureOrder])

/-- The measurement loop (source lines 106-133): `m` repetitions starting at
repetition index `k` (the index selects each send's delivery outcome from
`sendOk`), collecting the samples in order and concatenating the event
lists. -/
def measureLoop (c : Ctx) (fpm : ℕ) (sendOk : ℕ → Bool) :
    ℕ → ℕ → WState → WState × List (ℚ × ℚ) × List Ev
  | _, 0, st => (st, [], [])
  | k, m + 1, st =>
    let r1 := measureRep c fpm (sendOk k) st
    let r2 := measureLoop c fpm sendOk (k + 1) m r1.1
    (r2.1, r1.2.1 :: r2.2.1, r1.2.2 ++ r2.2.2)

/-- The statistics reduction of one worker (source lines 135-139): `dE` from
`calc_dE(&Es, T)`, `I` as the mean of the order-parameter series, `X` from
`calc_X(&Es)`. -/
def reduceRecord (T : ℚ) (Es Is : List ℚ) : RecordQ :=
  ⟨T, calc_dE Es T, Is.sum / (Is.length : ℚ), calc_X Es⟩

/-- The per-worker environment the runtime supplies: the randomly initialised
spin list (`Lattice::new`), the private stream of random draws
(`thread_rng()`), and the delivery outcome of each progress send.  None of
these can be pinned from the outside — the worker has no seed parameter. -/
structure WEnv where
  lat0 : List ℤ
  draws : ℕ → ℕ × ℚ
  sendOk : ℕ → Bool

/-- The static context a worker at temperature `T` builds from the
parameters (source lines 80-91): the flip probability is
`calc_flip_probability(E_diff, T, params.K)`, abstracted here as
`FP E_diff T K`. -/
def workerCtx (p : Params) (FP : ℚ → ℚ → ℚ → ℚ) (T : ℚ) (e : WEnv) : Ctx :=
  ⟨p.lattice_size, p.J, p.attempts_per_flip, fun dlt => FP dlt T p.K, e.draws⟩

/-- The worker's state after the equilibration phase (source lines 85-103):
`flips_to_skip` flip slots from the initial lattice, no samples retained and
no progress signals sent. -/
def equilState (p : Params) (FP : ℚ → ℚ → ℚ → ℚ) (e : WEnv) (T : ℚ) : WState :=
  runSlots (workerCtx p FP T e) p.flips_to_skip ⟨e.lat0, 0⟩

/-- The worker's full measurement phase, run from the equilibrated state. -/
def workerMeas (p : Params) (FP : ℚ → ℚ → ℚ → ℚ) (e : WEnv) (T : ℚ) :
    WState × List (ℚ × ℚ) × List Ev :=
  measureLoop (workerCtx p FP T e) p.flips_per_measurement e.sendOk 0
    p.measurements_per_T (equilState p FP e T)

/-- One worker (the closure of the parallel map, source lines 80-140):
equilibrate, measure, reduce.  Returns the worker's `Record` and its event
list. -/
def runWorker (p : Params) (FP : ℚ → ℚ → ℚ → ℚ) (e : WEnv) (T : ℚ) :
    RecordQ × List Ev :=
  let m := workerMeas p FP e T
  (reduceRecord T (m.2.1.map Prod.fst) (m.2.1.map Prod.snd), m.2.2)

/-- The configured temperature sequence (source lines 52-53): step 0.1. -/
def TsOf (p : Params) : List ℚ := tRangeList p.T_min p.T_max (1 / 10)

/-- The expected total of progress signals (source line 55):
`measurements_per_T * Ts.len()`. -/
def bar_count (p : Params) : ℕ := p.measurements_per_T * (TsOf p).length

/-- The unsorted records of the parallel map (source lines 75-141): one
worker, hence one record, per configured temperature. -/
def driverRaw (p : Params) (FP : ℚ → ℚ → ℚ → ℚ) (env : ℕ → WEnv) : List RecordQ :=
  (TsOf p).enum.map (fun iT => (runWorker p FP (env iT.1) iT.2).1)

/-- The event lists of all workers, one per configured temperature. -/
def driverTraces (p : Params) (FP : ℚ → ℚ → ℚ → ℚ) (env : ℕ → WEnv) : List (List Ev) :=
  (TsOf p).enum.map (fun iT => (runWorker p FP (env iT.1) iT.2).2)

/-- The number of progress signals sent across the whole run. -/
def totalSends (p : Params) (FP : ℚ → ℚ → ℚ → ℚ) (env : ℕ → WEnv) : ℕ :=
  ((driverTraces p FP env).map (fun tr => tr.countP isSend)).sum

/-- Stable insertion of a record into a list sorted by the driver's
comparator: skip while the new record's temperature compares `Greater`. -/
def insRec (x : RecordF) : List RecordF → List RecordF
  | [] => [x]
  | y :: ys =>
    if cmpF x.T y.T = Ordering.gt then y :: insRec x ys else x :: y :: ys

/-- The driver's final stable sort of the records by temperature (source
lines 143-145), modelled as insertion sort with the code's comparator. -/
def sortRecords : List RecordF → List RecordF
  | [] => []
  | x :: xs => insRec x (sortRecords xs)

/-- The driver's run (source lines 75-145): one record per temperature, then
the sort by temperature. -/
def runDriver (p : Params) (FP : ℚ → ℚ → ℚ → ℚ) (env : ℕ → WEnv) : List RecordF :=
  sortRecords ((driverRaw p FP env).map toRecordF)

/-- How the reporting (progress-consumer) thread ended: ran to completion, or
panicked. -/
inductive JoinOutcome
  | ok
  | panicked
  deriving DecidableEq

/-- The externally visible steps of the end of `main`. -/
inductive FinalStep
  | joinConsumer
  | writeOutput
  deriving DecidableEq

/-- The tail of `main` (source lines 162-178) as a function of the reporting
thread's join outcome: `let _ = handle.join()` discards the outcome, and the
output file is then written unconditionally — the step sequence does not
depend on `j`. -/
def mainTailSteps (_j : JoinOutcome) : List FinalStep :=
  [FinalStep.joinConsumer, FinalStep.writeOutput]

/-- The raw cell index of the `i`-th proposal drawn from state `st` (before
any flip of this slot is applied). -/
def propIx (c : Ctx) (st : WState) (i : ℕ) : ℕ :=
  (c.draws (st.pos + i)).1 % (c.size * c.size)

/-- The uniform value of the `i`-th proposal drawn from state `st`. -/
def propU (c : Ctx) (st : WState) (i : ℕ) : ℚ :=
  (c.draws (st.pos + i)).2

/-- The flip energy delta of the `i`-th proposal drawn from state `st`. -/
def propDelta (c : Ctx) (st : WState) (i : ℕ) : ℚ :=
  measure_E_diff c.size st.lat (propIx c st i) c.J

/-- Whether the `i`-th proposal drawn from state `st` is accepted: its flip
probability strictly exceeds its uniform draw. -/
def propAcc (c : Ctx) (st : WState) (i : ℕ) : Prop :=
  c.fp (propDelta c st i) > propU c st i

theorem proposalStep_eq (c : Ctx) (st : WState) :
    proposalStep c st =
      if c.fp (propDelta c st 0) > propU c st 0 then
        (⟨flip_spin st.lat (propIx c st 0), st.pos + 1⟩, true)
      else (⟨st.lat, st.pos + 1⟩, false) := by
  simp [proposalStep, propDelta, propIx, propU]

theorem propIx_shift (c : Ctx) (lat : List ℤ) (p i : ℕ) :
    propIx c ⟨lat, p + 1⟩ i = propIx c ⟨lat, p⟩ (i + 1) := by
  have h : p + 1 + i = p + (i + 1) := by omega
  simp [propIx, h]

theorem propAcc_shift (c : Ctx) (lat : List ℤ) (p i : ℕ) :
    propAcc c ⟨lat, p + 1⟩ i ↔ propAcc c ⟨lat, p⟩ (i + 1) := by
  have h : p + 1 + i = p + (i + 1) := by omega
  simp [propAcc, propDelta, propIx, propU, h]

theorem flipSlotGo_spec (c : Ctx) :
    ∀ (n : ℕ) (st : WState),
      (∃ i, i < n ∧ propAcc c st i ∧ (∀ j, j < i → ¬propAcc c st j) ∧
        flipSlotGo c n st = ⟨flip_spin st.lat (propIx c st i), st.pos + i + 1⟩) ∨
      ((∀ i, i < n → ¬propAcc c st i) ∧ flipSlotGo c n st = ⟨st.lat, st.pos + n⟩) := by
  intro n
  induction n with
  | zero =>
    intro st
    right
    exact ⟨fun i hi => absurd hi (Nat.not_lt_zero i), by cases st; simp [flipSlotGo]⟩
  | succ n ih =>
    intro st
    by_cases h0 : propAcc c st 0
    · left
      refine ⟨0, Nat.succ_pos n, h0, fun j hj => absurd hj (Nat.not_lt_zero j), ?_⟩
      have hacc : c.fp (propDelta c st 0) > propU c st 0 := h0
      simp [flipSlotGo, proposalStep_eq, hacc]
    · have hrej : ¬(c.fp (propDelta c st 0) > propU c st 0) := h0
      have hstep : flipSlotGo c (n + 1) st = flipSlotGo c n ⟨st.lat, st.pos + 1⟩ := by
        simp [flipSlotGo, proposalStep_eq, hrej]
      rcases ih ⟨st.lat, st.pos + 1⟩ with ⟨i, hi, hacc, hmin, heq⟩ | ⟨hall, heq⟩
      · left
        refine ⟨i + 1, Nat.succ_lt_succ hi, ?_, ?_, ?_⟩
        · exact (propAcc_shift c st.lat st.pos i).mp hacc
        · intro j hj
          match j with
          | 0 => exact h0
          | j + 1 =>
            have := hmin j (by omega)
            exact fun hc => this ((propAcc_shift c st.lat st.pos j).mpr hc)
        · rw [hstep, heq]
          have hx : propIx c ⟨st.lat, st.pos + 1⟩ i = propIx c st (i + 1) := by
            have := propIx_shift c st.lat st.pos i
            simpa using this
          simp only [hx, WState.mk.injEq]
          exact ⟨by trivial, by omega⟩
      · right
        refine ⟨?_, ?_⟩
        · intro i hi
          match i with
          | 0 => exact h0
          | i + 1 =>
            have := hall i (by omega)
            exact fun hc => this ((propAcc_shift c st.lat st.pos i).mpr hc)
        · rw [hstep, heq]
          simp only [WState.mk.injEq]
          exact ⟨by trivial, by omega⟩

/-- C1: in a flip slot (the same policy serves both the equilibration and
measurement phases), at most `attempts_per_flip` proposals are drawn (the
draw position advances by at most `c.attempts`); either some first accepted
proposal `i` exists — every earlier proposal rejected, that one flip is
applied and the slot ends immediately (draw position `st.pos + i + 1`, no
further proposals) — or every proposal within the bound is rejected and the
slot ends with the lattice unchanged. -/
theorem claim_C1_flip_slot_bounded (c : Ctx) (st : WState) :
    (flipSlot c st).pos ≤ st.pos + c.attempts ∧
    ((∃ i, i < c.attempts ∧ propAcc c st i ∧ (∀ j, j < i → ¬propAcc c st j) ∧
        flipSlot c st = ⟨flip_spin st.lat (propIx c st i), st.pos + i + 1⟩) ∨
      ((∀ i, i < c.attempts → ¬propAcc c st i) ∧
        flipSlot c st = ⟨st.lat, st.pos + c.attempts⟩)) := by
  have h := flipSlotGo_spec c c.attempts st
  constructor
  · rcases h with ⟨i, hi, _, _, heq⟩ | ⟨_, heq⟩
    · show (flipSlot c st).pos ≤ st.pos + c.attempts
      rw [flipSlot, heq]
      simp
      omega
    · show (flipSlot c st).pos ≤ st.pos + c.attempts
      rw [flipSlot, heq]
  · exact h

/-- C9: a proposal is applied iff its flip probability strictly exceeds the
uniform draw; with the draw in [0,1), a probability ≥ 1 is always accepted
and a probability of 0 is never accepted. -/
theorem claim_C9_acceptance (c : Ctx) (st : WState)
    (h0 : 0 ≤ propU c st 0) (h1 : propU c st 0 < 1) :
    ((proposalStep c st).2 = true ↔ c.fp (propDelta c st 0) > propU c st 0) ∧
    (1 ≤ c.fp (propDelta c st 0) → (proposalStep c st).2 = true) ∧
    (c.fp (propDelta c st 0) = 0 → (proposalStep c st).2 = false) := by
  rw [proposalStep_eq]
  refine ⟨?_, ?_, ?_⟩
  · by_cases h : c.fp (propDelta c st 0) > propU c st 0 <;> simp [h]
  · intro hge
    have : c.fp (propDelta c st 0) > propU c st 0 := lt_of_lt_of_le h1 hge
    simp [this]
  · intro hz
    have : ¬(c.fp (propDelta c st 0) > propU c st 0) := by
      rw [hz]
      exact not_lt.mpr h0
    simp [this]

/-- Concrete context for the C9 witness: one cell, one attempt, constant
flip probability 1, uniform draws fixed at 0. -/
def ctxW : Ctx := ⟨1, 0, 1, fun _ => 1, fun _ => (0, 0)⟩

/-- Concrete state for the C9 witness. -/
def stW : WState := ⟨[1], 0⟩

theorem claim_C9_acceptance_witness :
    (0 ≤ propU ctxW stW 0 ∧ propU ctxW stW 0 < 1) ∧
    (((proposalStep ctxW stW).2 = true ↔
        ctxW.fp (propDelta ctxW stW 0) > propU ctxW stW 0) ∧
      (1 ≤ ctxW.fp (propDelta ctxW stW 0) → (proposalStep ctxW stW).2 = true) ∧
      (ctxW.fp (propDelta ctxW stW 0) = 0 → (proposalStep ctxW stW).2 = false)) :=
  ⟨⟨by simp [propU, ctxW, stW], by simp [propU, ctxW, stW]⟩,
    claim_C9_acceptance ctxW stW (by simp [propU, ctxW, stW])
      (by simp [propU, ctxW, stW])⟩

/-- Whether an event is the energy measurement. -/
def isMeasE : Ev → Bool
  | Ev.measureEnergy => true
  | _ => false

/-- Whether an event is the order-parameter measurement. -/
def isMeasO : Ev → Bool
  | Ev.measureOrder => true
  | _ => false

theorem measureLoop_trace (c : Ctx) (fpm : ℕ) (sendOk : ℕ → Bool) :
    ∀ (m k : ℕ) (st : WState),
      (measureLoop c fpm sendOk k m st).2.2 =
        ((List.range m).map (fun j =>
          [Ev.sendSignal (sendOk (k + j)), Ev.measureEnergy, Ev.measureOrder])).flatten := by
  intro m
  induction m with
  | zero => intro k st; simp [measureLoop]
  | succ m ih =>
    intro k st
    simp only [measureLoop, measureRep]
    rw [ih (k + 1) (runSlots c fpm st), List.range_succ_eq_map]
    simp only [List.map_cons, List.map_map, List.flatten_cons, Nat.add_zero,
      List.cons_append, List.nil_append]
    refine congrArg (fun l => _ :: _ :: _ :: List.flatten l) ?_
    refine List.map_congr_left ?_
    intro j _
    simp only [Function.comp_apply]
    have h : k + 1 + j = k + (j + 1) := by omega
    rw [h]

theorem measureLoop_sendOk_irrelevant (c : Ctx) (fpm : ℕ) (s1 s2 : ℕ → Bool) :
    ∀ (m k1 k2 : ℕ) (st : WState),
      (measureLoop c fpm s1 k1 m st).1 = (measureLoop c fpm s2 k2 m st).1 ∧
      (measureLoop c fpm s1 k1 m st).2.1 = (measureLoop c fpm s2 k2 m st).2.1 := by
  intro m
  induction m with
  | zero => intro k1 k2 st; exact ⟨rfl, rfl⟩
  | succ m ih =>
    intro k1 k2 st
    obtain ⟨h1, h2⟩ := ih (k1 + 1) (k2 + 1) (runSlots c fpm st)
    constructor
    · simpa only [measureLoop, measureRep] using h1
    · simp only [measureLoop, measureRep]
      rw [h2]

theorem measureRep_send_count (c : Ctx) (fpm : ℕ) (ok : Bool) (st : WState) :
    ((measureRep c fpm ok st).2.2).countP isSend = 1 := by
  simp [measureRep, List.countP_cons, isSend]

theorem measureLoop_send_count (c : Ctx) (fpm : ℕ) (sendOk : ℕ → Bool) :
    ∀ (m k : ℕ) (st : WState),
      ((measureLoop c fpm sendOk k m st).2.2).countP isSend = m := by
  intro m
  induction m with
  | zero => intro k st; simp [measureLoop]
  | succ m ih =>
    intro k st
    simp only [measureLoop]
    rw [List.countP_append, measureRep_send_count, ih]
    omega

theorem runWorker_send_count (p : Params) (FP : ℚ → ℚ → ℚ → ℚ) (e : WEnv) (T : ℚ) :
    ((runWorker p FP e T).2).countP isSend = p.measurements_per_T := by
  simp only [runWorker, workerMeas]
  exact measureLoop_send_count _ _ _ _ _ _

theorem sum_map_const_nat {α : Type} (l : List α) (m : ℕ) (f : α → ℕ)
    (h : ∀ x ∈ l, f x = m) : (l.map f).sum = m * l.length := by
  induction l with
  | nil => simp
  | cons a l ih =>
    simp only [List.map_cons, List.sum_cons, List.length_cons]
    rw [h a (by simp), ih (fun x hx => h x (by simp [hx]))]
    ring

/-- C4: across a full run, the number of progress signals sent equals
`measurements_per_T` times the number of configured temperatures — which is
exactly the expected total `bar_count` the consumer waits for; each worker
sends exactly one signal per measurement repetition (its whole event list
holds `measurements_per_T` sends, and the equilibration phase contains no
send). -/
theorem claim_C4_total_signals (p : Params) (FP : ℚ → ℚ → ℚ → ℚ) (env : ℕ → WEnv) :
    totalSends p FP env = bar_count p ∧
    bar_count p = p.measurements_per_T * (TsOf p).length ∧
    (∀ (e : WEnv) (T : ℚ),
      ((runWorker p FP e T).2).countP isSend = p.measurements_per_T) := by
  refine ⟨?_, rfl, fun e T => runWorker_send_count p FP e T⟩
  unfold totalSends driverTraces bar_count
  rw [List.map_map]
  rw [sum_map_const_nat _ p.measurements_per_T _
    (fun x _ => runWorker_send_count p FP (env x.1) x.2)]
  rw [List.enum_length]

/-- Concrete context for the C2 counterexample: one cell, zero attempts per
slot, so a repetition's events are fully explicit. -/
def ctxC2 : Ctx := ⟨1, 1, 0, fun _ => 0, fun _ => (0, 0)⟩

/-- Concrete state for the C2 counterexample. -/
def stC2 : WState := ⟨[1], 0⟩

/-- C2 counterexample: in a concrete measurement repetition, the progress
signal occurs strictly before both the energy measurement and the
order-parameter measurement in the repetition's event order — refuting the
claim that the signal is emitted after the sample is recorded. -/
theorem claim_C2_counterexample :
    List.findIdx isSend ((measureRep ctxC2 0 true stC2).2.2) <
      List.findIdx isMeasE ((measureRep ctxC2 0 true stC2).2.2) ∧
    List.findIdx isSend ((measureRep ctxC2 0 true stC2).2.2) <
      List.findIdx isMeasO ((measureRep ctxC2 0 true stC2).2.2) := by
  constructor <;> decide

/-- C2 (amended): each measurement repetition first performs its flip slots,
then emits its one progress signal, and only then records the sample — the
measurement loop's event list is, repetition by repetition, the block
[send, measure energy, measure order]. -/
theorem claim_C2_amended_send_before_sample (c : Ctx) (fpm : ℕ)
    (sendOk : ℕ → Bool) (m k : ℕ) (st : WState) :
    (measureLoop c fpm sendOk k m st).2.2 =
      ((List.range m).map (fun j =>
        [Ev.sendSignal (sendOk (k + j)), Ev.measureEnergy, Ev.measureOrder])).flatten :=
  measureLoop_trace c fpm sendOk m k st

/-- C10: a worker's simulation results do not depend on the progress
consumer: every progress-channel send's outcome is ignored, so the produced
record and the full sequence of samples are identical whether each send is
delivered or fails, and a failing send never aborts the worker (the record
is produced in all cases). -/
theorem claim_C10_send_outcomes_irrelevant (p : Params) (FP : ℚ → ℚ → ℚ → ℚ)
    (T : ℚ) (lat0 : List ℤ) (draws : ℕ → ℕ × ℚ) (s1 s2 : ℕ → Bool) :
    (runWorker p FP ⟨lat0, draws, s1⟩ T).1 = (runWorker p FP ⟨lat0, draws, s2⟩ T).1 ∧
    (workerMeas p FP ⟨lat0, draws, s1⟩ T).2.1 =
      (workerMeas p FP ⟨lat0, draws, s2⟩ T).2.1 := by
  obtain ⟨h1, h2⟩ := measureLoop_sendOk_irrelevant
    (workerCtx p FP T ⟨lat0, draws, s1⟩) p.flips_per_measurement s1 s2
    p.measurements_per_T 0 0 (equilState p FP ⟨lat0, draws, s1⟩ T)
  have h2' : (workerMeas p FP ⟨lat0, draws, s1⟩ T).2.1 =
      (workerMeas p FP ⟨lat0, draws, s2⟩ T).2.1 := h2
  refine ⟨?_, h2'⟩
  simp only [runWorker]
  rw [h2']

theorem cmpF_gt_asymm {a b : FVal} (h : cmpF a b = Ordering.gt) :
    cmpF b a = Ordering.lt := by
  cases a with
  | nan => simp [cmpF, cmpOpt] at h
  | fin qa =>
    cases b with
    | nan => simp [cmpF, cmpOpt] at h
    | fin qb =>
      simp only [cmpF, cmpOpt, Option.getD_some] at h ⊢
      by_cases h1 : qa < qb
      · simp [h1] at h
      by_cases h2 : qa = qb
      · simp [h1, h2] at h
      have h3 : qb < qa := by
        rcases lt_trichotomy qa qb with hc | hc | hc
        · exact absurd hc h1
        · exact absurd hc h2
        · exact hc
      simp [h3]

theorem cmpF_fin_le (qa qb : ℚ) :
    cmpF (FVal.fin qa) (FVal.fin qb) ≠ Ordering.gt ↔ qa ≤ qb := by
  simp only [cmpF, cmpOpt, Option.getD_some]
  by_cases h1 : qa < qb
  · simp [h1, le_of_lt h1]
  by_cases h2 : qa = qb
  · simp [h1, h2]
  · have h3 : qb < qa := by
      rcases lt_trichotomy qa qb with hc | hc | hc
      · exact absurd hc h1
      · exact absurd hc h2
      · exact hc
    simp [h1, h2, not_le.mpr h3]

theorem insRec_perm (x : RecordF) (l : List RecordF) :
    List.Perm (insRec x l) (x :: l) := by
  induction l with
  | nil => exact List.Perm.refl _
  | cons y ys ih =>
    by_cases h : cmpF x.T y.T = Ordering.gt
    · simp only [insRec, if_pos h]
      exact (List.Perm.cons y ih).trans (List.Perm.swap x y ys)
    · simp only [insRec, if_neg h]
      exact List.Perm.refl _

theorem sortRecords_perm (l : List RecordF) : List.Perm (sortRecords l) l := by
  induction l with
  | nil => exact List.Perm.refl _
  | cons x xs ih =>
    exact (insRec_perm x (sortRecords xs)).trans (List.Perm.cons x ih)

theorem insRec_chain (x : RecordF) (l : List RecordF)
    (h : List.Chain' (fun a b => cmpF a.T b.T ≠ Ordering.gt) l) :
    List.Chain' (fun a b => cmpF a.T b.T ≠ Ordering.gt) (insRec x l) := by
  induction l with
  | nil => simp [insRec]
  | cons y ys ih =>
    rw [List.chain'_cons'] at h
    obtain ⟨hy, hys⟩ := h
    by_cases hgt : cmpF x.T y.T = Ordering.gt
    · simp only [insRec, if_pos hgt]
      rw [List.chain'_cons']
      refine ⟨?_, ih hys⟩
      intro z hz
      cases ys with
      | nil =>
        simp only [insRec, List.head?_cons, Option.mem_def, Option.some.injEq] at hz
        rw [← hz, cmpF_gt_asymm hgt]
        simp
      | cons w ws =>
        by_cases hgw : cmpF x.T w.T = Ordering.gt
        · simp only [insRec, if_pos hgw, List.head?_cons, Option.mem_def,
            Option.some.injEq] at hz
          rw [← hz]
          exact hy w (by simp)
        · simp only [insRec, if_neg hgw, List.head?_cons, Option.mem_def,
            Option.some.injEq] at hz
          rw [← hz, cmpF_gt_asymm hgt]
          simp
    · simp only [insRec, if_neg hgt]
      rw [List.chain'_cons']
      refine ⟨?_, ?_⟩
      · intro z hz
        simp only [List.head?_cons, Option.mem_def, Option.some.injEq] at hz
        rw [← hz]
        exact hgt
      · rw [List.chain'_cons']
        exact ⟨hy, hys⟩

theorem sortRecords_chain (l : List RecordF) :
    List.Chain' (fun a b => cmpF a.T b.T ≠ Ordering.gt) (sortRecords l) := by
  induction l with
  | nil => simp [sortRecords]
  | cons x xs ih => exact insRec_chain x (sortRecords xs) ih

theorem runWorker_T (p : Params) (FP : ℚ → ℚ → ℚ → ℚ) (e : WEnv) (T : ℚ) :
    (runWorker p FP e T).1.T = T := rfl

/-- C3: the driver's run returns exactly one record per configured
temperature (the sorted output has one record per temperature, and its
multiset of temperature fields is exactly the configured temperature
sequence), the output is sorted ascending by the `T` field under the code's
comparator (no adjacent pair compares `Greater`, which on ordinary values
means ascending order), and an unorderable comparison makes the comparator
fall back to `Less` instead of failing. -/
theorem claim_C3_driver_records_sorted (p : Params) (FP : ℚ → ℚ → ℚ → ℚ)
    (env : ℕ → WEnv) :
    (runDriver p FP env).length = (TsOf p).length ∧
    List.Perm ((runDriver p FP env).map (fun r => r.T)) ((TsOf p).map FVal.fin) ∧
    List.Chain' (fun a b => cmpF a.T b.T ≠ Ordering.gt) (runDriver p FP env) ∧
    (∀ x y : FVal, cmpOpt x y = none → cmpF x y = Ordering.lt) ∧
    (∀ qa qb : ℚ, cmpF (FVal.fin qa) (FVal.fin qb) ≠ Ordering.gt ↔ qa ≤ qb) := by
  have hperm : List.Perm (runDriver p FP env) ((driverRaw p FP env).map toRecordF) :=
    sortRecords_perm _
  have hmapT : ((driverRaw p FP env).map toRecordF).map (fun r => r.T) =
      (TsOf p).map FVal.fin := by
    simp only [driverRaw, List.map_map]
    have hfun : ((fun r : RecordF => r.T) ∘ toRecordF ∘
        (fun iT : ℕ × ℚ => (runWorker p FP (env iT.1) iT.2).1)) =
        (FVal.fin ∘ Prod.snd) := rfl
    rw [hfun, ← List.map_map, List.enum_map_snd]
  refine ⟨?_, ?_, ?_, ?_, cmpF_fin_le⟩
  · rw [hperm.length_eq]
    simp [driverRaw, List.enum_length]
  · have := hperm.map (fun r : RecordF => r.T)
    rw [hmapT] at this
    exact this
  · exact sortRecords_chain _
  · intro x y h
    rw [cmpF, h]
    rfl

/-- C5 (code bug): the tail of `main` discards the reporting thread's join
outcome — the externally visible step sequence is the same whether the
reporting thread finished normally or panicked, and the output file is
written even after a panic, so the run is declared done regardless of the
reporting task's outcome. -/
theorem claim_C5_join_outcome_discarded :
    mainTailSteps JoinOutcome.panicked = mainTailSteps JoinOutcome.ok ∧
    FinalStep.writeOutput ∈ mainTailSteps JoinOutcome.panicked :=
  ⟨rfl, by simp [mainTailSteps]⟩

/-- C6 counterexample: a temperature-T reduction of the energy series
[0, 2] under a configuration with thermal constant K = 2 records
dE = Var(E)/T² = 1, not the claimed Var(E)/(K·T²) = 1/2 — the thermal
constant cannot influence `dE` because the call site passes only the
energies and the temperature. -/
theorem claim_C6_counterexample :
    (reduceRecord 1 [0, 2] [0, 0]).dE ≠ calc_dE_specK 2 1 [0, 2] := by
  simp only [reduceRecord, calc_dE, calc_dE_specK, popVar, listMean]
  norm_num

/-- C6 (amended): the record's `dE` is the population variance of the
sampled energies scaled by 1/T² only; the configuration's thermal constant
does not enter the statistics reduction. -/
theorem claim_C6_amended_dE_scaling (p : Params) (FP : ℚ → ℚ → ℚ → ℚ)
    (e : WEnv) (T : ℚ) :
    (runWorker p FP e T).1.dE =
      popVar ((workerMeas p FP e T).2.1.map Prod.fst) / T ^ 2 := rfl

/-- C7 counterexample: for energy samples [0, 2] and order-parameter samples
[0, 4], the record's `X` equals the energy-series reduction (1) and differs
from the order-parameter-series reduction (4) — `X` is hard-coded to the
energy series, not a selectable strategy over either series. -/
theorem claim_C7_counterexample :
    (reduceRecord 1 [0, 2] [0, 4]).X =
      calc_X_sel SeriesChoice.energy [0, 2] [0, 4] ∧
    (reduceRecord 1 [0, 2] [0, 4]).X ≠
      calc_X_sel SeriesChoice.order [0, 2] [0, 4] := by
  refine ⟨rfl, ?_⟩
  simp only [reduceRecord, calc_X, calc_X_sel, popVar, listMean]
  norm_num

/-- C7 (amended): the record's `X` is a fixed reduction of the energy sample
series alone — it is unchanged under any change of the order-parameter
series, and equals `calc_X` of the energies. -/
theorem claim_C7_amended_X_energy_only (T : ℚ) (Es Is Is' : List ℚ) :
    (reduceRecord T Es Is).X = (reduceRecord T Es Is').X ∧
    (reduceRecord T Es Is).X = calc_X Es :=
  ⟨rfl, rfl⟩

/-- Parameters for the C8 theorems: lattice side 2, no equilibration, one
measurement, no flips, so the record reflects the initial lattice. -/
def paramsC8 : Params := ⟨2 / 10, 4, 0, 1, 0, 1, 2, 1, 1⟩

/-- Flip-probability function for the C8 theorems (never consulted: the
configuration performs no flip slots). -/
def fpC8 : ℚ → ℚ → ℚ → ℚ := fun _ _ _ => 0

/-- One possible worker environment: the thread-local entropy initialised
the lattice fully aligned. -/
def envC8A : WEnv := ⟨[1, 1, 1, 1], fun _ => (0, 0), fun _ => true⟩

/-- Another possible worker environment for a repeated run: fresh entropy
initialised the lattice differently. -/
def envC8B : WEnv := ⟨[1, 1, 1, -1], fun _ => (0, 0), fun _ => true⟩

/-- C8 counterexample: two single-worker runs at the same temperature with
the same configuration, differing only in the entropy behind the worker's
private random source (which has no seed parameter that could pin it),
produce different records — repeated runs are not bit-identical. -/
theorem claim_C8_counterexample :
    (runWorker paramsC8 fpC8 envC8A 1).1 ≠ (runWorker paramsC8 fpC8 envC8B 1).1 := by
  simp [runWorker, workerMeas, measureLoop, measureRep, equilState, runSlots,
    workerCtx, reduceRecord, calc_dE, calc_X, popVar, listMean, measure_E,
    measure_I, pairSum, spinAt, paramsC8, fpC8, envC8A, envC8B, RecordQ.mk.injEq]
  norm_num

/-- C8 (amended): the worker's record is a function of the configuration,
the temperature, the initial lattice and the sequence of random draws alone:
two runs whose environments agree on the initial lattice and on every draw
produce identical records (the send-delivery outcomes cannot matter). -/
theorem claim_C8_amended_stream_determinism (p : Params) (FP : ℚ → ℚ → ℚ → ℚ)
    (T : ℚ) (e1 e2 : WEnv) (hlat : e1.lat0 = e2.lat0)
    (hdraws : ∀ i, e1.draws i = e2.draws i) :
    (runWorker p FP e1 T).1 = (runWorker p FP e2 T).1 := by
  obtain ⟨lat1, d1, s1⟩ := e1
  obtain ⟨lat2, d2, s2⟩ := e2
  have hd : d1 = d2 := funext hdraws
  simp only at hlat
  subst hlat
  subst hd
  obtain ⟨h1, h2⟩ := measureLoop_sendOk_irrelevant
    (workerCtx p FP T ⟨lat1, d1, s1⟩) p.flips_per_measurement s1 s2
    p.measurements_per_T 0 0 (equilState p FP ⟨lat1, d1, s1⟩ T)
  have h2' : (workerMeas p FP ⟨lat1, d1, s1⟩ T).2.1 =
      (workerMeas p FP ⟨lat1, d1, s2⟩ T).2.1 := h2
  simp only [runWorker]
  rw [h2']

theorem claim_C8_amended_stream_determinism_witness :
    (envC8A.lat0 = envC8A.lat0 ∧ (∀ i, envC8A.draws i = envC8A.draws i)) ∧
    (runWorker paramsC8 fpC8 envC8A 1).1 = (runWorker paramsC8 fpC8 envC8A 1).1 :=
  ⟨⟨rfl, fun _ => rfl⟩,
    claim_C8_amended_stream_determinism paramsC8 fpC8 1 envC8A envC8A rfl
      (fun _ => rfl)⟩

end IsingSim
